import Mathlib

/-!
Shallow embedding of the `stairs` Go package (stairs.go), a weighted random
sampler: `BuildCDF` sorts a slice of weighted items ascending by weight,
validates positivity, replaces each weight in place by the running cumulative
sum, and returns a closure that draws a random value and binary-searches the
cumulative array for the originating index.

Modelling conventions:
- Go `int` is a 64-bit two's-complement integer whose addition wraps on
  overflow. All comparisons and validation checks of the build read only
  original (pre-accumulation) weight values, so they are modelled on `Int`
  directly. The in-place accumulation `s[i].Weight += s[i-1].Weight` is
  modelled twice: exactly (`accumLoop` / `runningCDF` / `BuildCDF`), which is
  faithful for the claims whose content does not depend on the stored sums
  overflowing (error behaviour, failure frame), and with explicit 64-bit
  wraparound (`wrap64` / `accumLoopWrap` / `runningCDFWrap` / `BuildCDFWrap`)
  for the claims about the stored cumulative values and the draws over them,
  where overflow matters.
- Go `float64` is modelled as `ℚ`: the floating-point claims checked here are
  about control flow, ordering and exact branch conditions, none of which
  involve rounding of the tested values.
- The in-place mutation of the caller's slice is modelled by returning the
  final state of the slice alongside the error value: `BuildCDF` returns
  `(error?, final slice state)`; on success the draw closure searches exactly
  that final state (in Go the closure captures the same backing array).
- Go's `rand.Intn(n)` / `rand.Float64()` are modelled by parametrising the
  draw over the raw random value (`v ∈ [0, n)`, resp. `u ∈ [0, 1)`).
- Array indexing (which panics when out of bounds in Go) is modelled with
  `List.get?`; an out-of-bounds access makes the whole search return `none`.
- The unbounded `for` loop of `searchCDF` is modelled with an explicit fuel
  parameter (`none` on exhaustion); the Go function starts with fuel
  `s.length`, and the termination theorems show this fuel is never exhausted.
-/

set_option maxHeartbeats 1000000

/-- Generic shape shared by `WeightedItem` (stairs.go lines 19-25) and
`WeightedItemFloat` (lines 33-39): a weight and the index of the item in the
caller's original array. -/
structure WeightedItemG (W : Type) where
  Weight : W
  Index : Int
deriving DecidableEq

/-- `WeightedItem` from stairs.go lines 19-25 (integer weight). -/
abbrev WeightedItem := WeightedItemG Int

/-- `WeightedItemFloat` from stairs.go lines 33-39 (float64 weight, modelled
as `ℚ`). -/
abbrev WeightedItemFloat := WeightedItemG ℚ

/-- `EPSILON` from stairs.go line 15: `0.00001`. -/
def EPSILON : ℚ := 1 / 100000

/-- The two error values of the package: `tooShortErr` (line 76, returned on
empty input) and `zeroWeightErr` (line 77, returned on a non-positive
weight). -/
inductive BuildErr where
  | emptyInput
  | nonPositiveWeight
deriving DecidableEq

/-- The sort order used by `sort.Sort` through the `Less` methods
(stairs.go lines 50-52 and 66-68): ascending by weight. -/
def weightLE {W : Type} [LinearOrder W] (a b : WeightedItemG W) : Prop :=
  a.Weight ≤ b.Weight

/-- Strict weight order, used to state that cumulative entries are strictly
increasing. -/
def weightLT {W : Type} [LinearOrder W] (a b : WeightedItemG W) : Prop :=
  a.Weight < b.Weight

instance {W : Type} [LinearOrder W] : DecidableRel (@weightLE W _) :=
  fun a b => inferInstanceAs (Decidable (a.Weight ≤ b.Weight))

instance {W : Type} [LinearOrder W] : IsTotal (WeightedItemG W) weightLE :=
  ⟨fun a b => le_total a.Weight b.Weight⟩

instance {W : Type} [LinearOrder W] : IsTrans (WeightedItemG W) weightLE :=
  ⟨fun _ _ _ h1 h2 => le_trans h1 h2⟩

instance {W : Type} [LinearOrder W] : IsTrans (WeightedItemG W) weightLT :=
  ⟨fun _ _ _ h1 h2 => lt_trans h1 h2⟩

/-- `sort.Sort(s)` (stairs.go lines 88 and 163): some permutation of `s`
sorted ascending by weight (Go's sort is unstable; tie order is not
semantically significant, so insertion sort is a faithful choice). -/
def sortByWeight {W : Type} [LinearOrder W] (s : List (WeightedItemG W)) :
    List (WeightedItemG W) :=
  List.insertionSort weightLE s

/-- The accumulation loop of the integer `BuildCDF` (stairs.go lines 96-103):
walk the sorted tail, reject a non-positive weight (the check reads the
current element's original weight, not an accumulated one), otherwise
overwrite the weight with the running cumulative sum. `done` holds the
already-processed prefix in reverse, `prev` the previous cumulative value;
the second component of the result is the final state of the slice. This
variant accumulates with exact integers: it agrees with Go for the error
value on all inputs and for the stored sums whenever they do not overflow;
`accumLoopWrap` is the overflow-faithful variant used by the claims about
the stored values. -/
def accumLoop (done : List WeightedItem) (prev : Int) :
    List WeightedItem → Option BuildErr × List WeightedItem
  | [] => (none, done.reverse)
  | x :: rest =>
    if x.Weight ≤ 0 then (some .nonPositiveWeight, done.reverse ++ x :: rest)
    else accumLoop (⟨prev + x.Weight, x.Index⟩ :: done) (prev + x.Weight) rest

/-- `WeightedItems.BuildCDF` (stairs.go lines 81-151), build phase: reject an
empty slice (line 83), sort ascending by weight (line 88), reject a
non-positive first weight (line 91), accumulate (lines 96-103). Returns the
error value together with the final state of the caller's slice; on success
(`none`) the draw closure binary-searches that final state. The `[]` match
arm is unreachable (sorting preserves length). -/
def BuildCDF (s : List WeightedItem) : Option BuildErr × List WeightedItem :=
  if s.length ≤ 0 then (some .emptyInput, s)
  else
    match sortByWeight s with
    | [] => (some .emptyInput, s)
    | first :: rest =>
      if first.Weight ≤ 0 then (some .nonPositiveWeight, first :: rest)
      else accumLoop [first] first.Weight rest

/-- The accumulation loop of the float `BuildCDF` (stairs.go lines 171-178).
Identical to the integer loop except that the positivity check on line 173
reads `s[0].Weight <= 0` — it tests the (never modified) first element of the
sorted slice, passed in here as `head0`, not the current element `x`. -/
def accumLoopFloat (head0 : ℚ) (done : List WeightedItemFloat) (prev : ℚ) :
    List WeightedItemFloat → Option BuildErr × List WeightedItemFloat
  | [] => (none, done.reverse)
  | x :: rest =>
    if head0 ≤ 0 then (some .nonPositiveWeight, done.reverse ++ x :: rest)
    else accumLoopFloat head0 (⟨prev + x.Weight, x.Index⟩ :: done) (prev + x.Weight) rest

/-- `WeightedItemsFloat.BuildCDF` (stairs.go lines 156-226), build phase:
same structure as the integer variant, but the in-loop check tests the first
sorted element (line 173). -/
def BuildCDFFloat (s : List WeightedItemFloat) : Option BuildErr × List WeightedItemFloat :=
  if s.length ≤ 0 then (some .emptyInput, s)
  else
    match sortByWeight s with
    | [] => (some .emptyInput, s)
    | first :: rest =>
      if first.Weight ≤ 0 then (some .nonPositiveWeight, first :: rest)
      else accumLoopFloat first.Weight [first] first.Weight rest

/-- The binary-search loop shared by both `searchCDF` closures (stairs.go
lines 117-148 and 192-223); the two differ only in the equality test on the
middle element (`valm == num` on line 122, `math.Abs(valm-num) <= EPSILON` on
line 197), injected here as `eqT`. `fuel` bounds the number of iterations
(the Go loop is unbounded; the termination theorems show fuel `s.length`
suffices); an out-of-bounds access yields `none` (a Go panic). -/
def searchLoop {W : Type} [LinearOrder W] (eqT : W → W → Bool)
    (s : List (WeightedItemG W)) (num : W) :
    Nat → Nat → Nat → Option Int
  | 0, _, _ => none
  | fuel + 1, left, right =>
    match s.get? ((left + right) / 2) with
    | none => none
    | some im =>
      if eqT im.Weight num then some im.Index
      else if im.Weight < num then
        if (left + right) / 2 = s.length - 1 then some im.Index
        else
          match s.get? ((left + right) / 2 + 1) with
          | none => none
          | some im1 =>
            if num < im1.Weight then some im1.Index
            else searchLoop eqT s num fuel ((left + right) / 2 + 1) right
      else
        if (left + right) / 2 = 0 then some im.Index
        else
          match s.get? ((left + right) / 2 - 1) with
          | none => none
          | some im0 =>
            if im0.Weight ≤ num then some im.Index
            else searchLoop eqT s num fuel left ((left + right) / 2 - 1)

/-- The integer `searchCDF` closure (stairs.go lines 108-149) applied to an
already-drawn value `num` (line 110 draws `num = Intn(total) + 1`; the draw
itself is modelled by `drawNumInt`): binary search with `left = 0`,
`right = len(s) - 1` (lines 114-115) and exact equality. -/
def searchCDF (s : List WeightedItem) (num : Int) : Option Int :=
  searchLoop (fun a b => a == b) s num s.length 0 (s.length - 1)

/-- The float `searchCDF` closure (stairs.go lines 183-224) applied to an
already-drawn value `num` (line 185): binary search with epsilon-tolerant
equality (line 197). -/
def searchCDFFloat (s : List WeightedItemFloat) (num : ℚ) : Option Int :=
  searchLoop (fun a b => decide (|a - b| ≤ EPSILON)) s num s.length 0 (s.length - 1)

/-- `s[len(s)-1].Weight`, the total weight read by both closures (stairs.go
lines 110 and 185), for the integer variant. -/
def totalWeight (s : List WeightedItem) : Int :=
  ((s.get? (s.length - 1)).map (fun x => x.Weight)).getD 0

/-- `s[len(s)-1].Weight` for the float variant. -/
def totalWeightFloat (s : List WeightedItemFloat) : ℚ :=
  ((s.get? (s.length - 1)).map (fun x => x.Weight)).getD 0

/-- The drawn value of the integer variant (stairs.go line 110):
`num = Intn(total) + 1` where `v` models the result of `r.Intn(total)`,
a uniform integer in `[0, total)`. -/
def drawNumInt (v : Int) : Int := v + 1

/-- The drawn value of the float variant (stairs.go line 185):
`num = Float64()*(total-1) + 1` where `u` models the result of
`r.Float64()`, a uniform value in `[0, 1)`. -/
def drawNumFloat (total u : ℚ) : ℚ := u * (total - 1) + 1

/-- Definition following the spec's words, for comparison with `searchCDF`:
the `Index` field stored at the first position of the cumulative array whose
cumulative value is `≥ num`. -/
def specFirstIndexGE {W : Type} [LinearOrder W] (s : List (WeightedItemG W)) (num : W) :
    Option Int :=
  (s.find? (fun x => decide (num ≤ x.Weight))).map (fun x => x.Index)

/-- The pure prefix-sum transformation that the accumulation loops perform on
the sorted tail when no error occurs: each weight becomes `prev +` its own
weight, indices untouched. Exact arithmetic; `runningCDFWrap` below is the
wrapping counterpart for the integer variant. -/
def runningCDF {W : Type} [Add W] (prev : W) :
    List (WeightedItemG W) → List (WeightedItemG W)
  | [] => []
  | x :: rest => ⟨prev + x.Weight, x.Index⟩ :: runningCDF (prev + x.Weight) rest

/-- Sorted (ascending) list of the original weights themselves; its first
`k` entries are the `k` smallest original weights. -/
def sortedWeights (s : List WeightedItem) : List Int :=
  List.insertionSort (fun a b => a ≤ b) (s.map (fun x => x.Weight))

/-- Two's-complement wraparound of Go's 64-bit `int` addition: the stored
value of an `Int` reduced into `[-2^63, 2^63)`. -/
def wrap64 (x : Int) : Int := (x + 2 ^ 63) % 2 ^ 64 - 2 ^ 63

/-- The accumulation loop of the integer `BuildCDF` (stairs.go lines 96-103)
with the overflow semantics of Go's `int`: the positivity check reads the
current element's original (not yet overwritten) weight, and the stored
cumulative value `s[i].Weight += s[i-1].Weight` wraps on overflow. -/
def accumLoopWrap (done : List WeightedItem) (prev : Int) :
    List WeightedItem → Option BuildErr × List WeightedItem
  | [] => (none, done.reverse)
  | x :: rest =>
    if x.Weight ≤ 0 then (some .nonPositiveWeight, done.reverse ++ x :: rest)
    else accumLoopWrap (⟨wrap64 (prev + x.Weight), x.Index⟩ :: done)
      (wrap64 (prev + x.Weight)) rest

/-- `WeightedItems.BuildCDF` (stairs.go lines 81-151), build phase, with
wrapping 64-bit accumulation; the structure is identical to `BuildCDF`, only
the stored cumulative sums differ (and only on overflowing inputs). -/
def BuildCDFWrap (s : List WeightedItem) : Option BuildErr × List WeightedItem :=
  if s.length ≤ 0 then (some .emptyInput, s)
  else
    match sortByWeight s with
    | [] => (some .emptyInput, s)
    | first :: rest =>
      if first.Weight ≤ 0 then (some .nonPositiveWeight, first :: rest)
      else accumLoopWrap [first] first.Weight rest

/-- The prefix-sum transformation performed by `accumLoopWrap` when no error
occurs: each stored weight is the wrapped 64-bit sum. -/
def runningCDFWrap (prev : Int) : List WeightedItem → List WeightedItem
  | [] => []
  | x :: rest =>
    ⟨wrap64 (prev + x.Weight), x.Index⟩ :: runningCDFWrap (wrap64 (prev + x.Weight)) rest

/-! ### Helper lemmas: sorting -/

theorem sortByWeight_perm {W : Type} [LinearOrder W] (s : List (WeightedItemG W)) :
    List.Perm (sortByWeight s) s :=
  List.perm_insertionSort weightLE s

theorem sortByWeight_sorted {W : Type} [LinearOrder W] (s : List (WeightedItemG W)) :
    List.Sorted weightLE (sortByWeight s) :=
  List.sorted_insertionSort weightLE s

theorem sortByWeight_length {W : Type} [LinearOrder W] (s : List (WeightedItemG W)) :
    (sortByWeight s).length = s.length :=
  (sortByWeight_perm s).length_eq

theorem sorted_tail_pos {W : Type} [LinearOrder W] [Zero W] (s : List (WeightedItemG W))
    (first : WeightedItemG W) (rest : List (WeightedItemG W))
    (hsort : sortByWeight s = first :: rest) (hw : 0 < first.Weight) :
    ∀ x ∈ rest, 0 < x.Weight := by
  intro x hx
  have hsorted := sortByWeight_sorted s
  rw [hsort] at hsorted
  exact lt_of_lt_of_le hw (List.rel_of_sorted_cons hsorted x hx)

theorem sorted_head_min {W : Type} [LinearOrder W] [Zero W] (s : List (WeightedItemG W))
    (first : WeightedItemG W) (rest : List (WeightedItemG W))
    (hsort : sortByWeight s = first :: rest) :
    (∃ x ∈ s, x.Weight ≤ 0) ↔ first.Weight ≤ 0 := by
  constructor
  · rintro ⟨x, hx, hxw⟩
    have hmem : x ∈ sortByWeight s := by
      unfold sortByWeight
      exact (List.mem_insertionSort weightLE).mpr hx
    rw [hsort] at hmem
    rcases List.mem_cons.mp hmem with rfl | hmem
    · exact hxw
    · have hsorted := sortByWeight_sorted s
      rw [hsort] at hsorted
      exact le_trans (List.rel_of_sorted_cons hsorted x hmem) hxw
  · intro h
    have hmem : first ∈ sortByWeight s := by rw [hsort]; exact List.mem_cons_self _ _
    rw [sortByWeight] at hmem
    exact ⟨first, (List.mem_insertionSort weightLE).mp hmem, h⟩

theorem sortByWeight_ne_nil {W : Type} [LinearOrder W] (s : List (WeightedItemG W))
    (hne : s ≠ []) : ∃ first rest, sortByWeight s = first :: rest := by
  cases hsort : sortByWeight s with
  | nil =>
    exfalso
    have h1 := sortByWeight_length s
    rw [hsort] at h1
    exact hne (List.length_eq_zero.mp h1.symm)
  | cons first rest => exact ⟨first, rest, rfl⟩

/-! ### Helper lemmas: the accumulation loops -/

theorem accumLoop_pos (rest : List WeightedItem) :
    ∀ (done : List WeightedItem) (prev : Int), (∀ x ∈ rest, 0 < x.Weight) →
      accumLoop done prev rest = (none, done.reverse ++ runningCDF prev rest) := by
  induction rest with
  | nil => intro done prev _; simp [accumLoop, runningCDF]
  | cons x rest ih =>
    intro done prev hpos
    have hx : ¬ x.Weight ≤ 0 := not_le.mpr (hpos x (List.mem_cons_self x rest))
    rw [accumLoop, if_neg hx,
      ih (⟨prev + x.Weight, x.Index⟩ :: done) (prev + x.Weight)
        (fun y hy => hpos y (List.mem_cons_of_mem x hy))]
    simp [runningCDF]

theorem accumLoopFloat_pos (rest : List WeightedItemFloat) :
    ∀ (head0 : ℚ) (done : List WeightedItemFloat) (prev : ℚ), 0 < head0 →
      accumLoopFloat head0 done prev rest = (none, done.reverse ++ runningCDF prev rest) := by
  induction rest with
  | nil => intro head0 done prev _; simp [accumLoopFloat, runningCDF]
  | cons x rest ih =>
    intro head0 done prev h0
    rw [accumLoopFloat, if_neg (not_le.mpr h0),
      ih head0 (⟨prev + x.Weight, x.Index⟩ :: done) (prev + x.Weight) h0]
    simp [runningCDF]

/-! ### Helper lemmas: characterising the builds -/

theorem BuildCDF_cons (s : List WeightedItem) (first : WeightedItem)
    (rest : List WeightedItem) (hsort : sortByWeight s = first :: rest) :
    BuildCDF s = if first.Weight ≤ 0 then (some .nonPositiveWeight, first :: rest)
      else accumLoop [first] first.Weight rest := by
  have h1 := sortByWeight_length s
  rw [hsort, List.length_cons] at h1
  have hlen : ¬ s.length ≤ 0 := by omega
  rw [BuildCDF, if_neg hlen, hsort]

theorem BuildCDFFloat_cons (s : List WeightedItemFloat) (first : WeightedItemFloat)
    (rest : List WeightedItemFloat) (hsort : sortByWeight s = first :: rest) :
    BuildCDFFloat s = if first.Weight ≤ 0 then (some .nonPositiveWeight, first :: rest)
      else accumLoopFloat first.Weight [first] first.Weight rest := by
  have h1 := sortByWeight_length s
  rw [hsort, List.length_cons] at h1
  have hlen : ¬ s.length ≤ 0 := by omega
  rw [BuildCDFFloat, if_neg hlen, hsort]

theorem BuildCDF_ok_iff (s out : List WeightedItem) :
    BuildCDF s = (none, out) ↔
      ∃ first rest, sortByWeight s = first :: rest ∧ 0 < first.Weight ∧
        out = first :: runningCDF first.Weight rest := by
  constructor
  · intro h
    by_cases hne : s = []
    · subst hne; simp [BuildCDF] at h
    · obtain ⟨first, rest, hsort⟩ := sortByWeight_ne_nil s hne
      rw [BuildCDF_cons s first rest hsort] at h
      by_cases hw : first.Weight ≤ 0
      · rw [if_pos hw] at h; simp at h
      · rw [if_neg hw,
          accumLoop_pos rest [first] first.Weight
            (sorted_tail_pos s first rest hsort (not_le.mp hw))] at h
        rw [Prod.mk.injEq] at h
        exact ⟨first, rest, hsort, not_le.mp hw, by simpa using h.2.symm⟩
  · rintro ⟨first, rest, hsort, hw, rfl⟩
    rw [BuildCDF_cons s first rest hsort, if_neg (not_le.mpr hw),
      accumLoop_pos rest [first] first.Weight (sorted_tail_pos s first rest hsort hw)]
    simp

theorem BuildCDFFloat_ok_iff (s out : List WeightedItemFloat) :
    BuildCDFFloat s = (none, out) ↔
      ∃ first rest, sortByWeight s = first :: rest ∧ 0 < first.Weight ∧
        out = first :: runningCDF first.Weight rest := by
  constructor
  · intro h
    by_cases hne : s = []
    · subst hne; simp [BuildCDFFloat] at h
    · obtain ⟨first, rest, hsort⟩ := sortByWeight_ne_nil s hne
      rw [BuildCDFFloat_cons s first rest hsort] at h
      by_cases hw : first.Weight ≤ 0
      · rw [if_pos hw] at h; simp at h
      · rw [if_neg hw, accumLoopFloat_pos rest first.Weight [first] first.Weight (not_le.mp hw)] at h
        rw [Prod.mk.injEq] at h
        exact ⟨first, rest, hsort, not_le.mp hw, by simpa using h.2.symm⟩
  · rintro ⟨first, rest, hsort, hw, rfl⟩
    rw [BuildCDFFloat_cons s first rest hsort, if_neg (not_le.mpr hw),
      accumLoopFloat_pos rest first.Weight [first] first.Weight hw]
    simp

/-! ### Helper lemmas: the prefix-sum list -/

theorem runningCDF_length {W : Type} [Add W] (rest : List (WeightedItemG W)) :
    ∀ prev, (runningCDF prev rest).length = rest.length := by
  induction rest with
  | nil => intro prev; rfl
  | cons x rest ih => intro prev; simp [runningCDF, ih]

theorem runningCDF_map_index {W : Type} [Add W] (rest : List (WeightedItemG W)) :
    ∀ prev, (runningCDF prev rest).map (fun x => x.Index) = rest.map (fun x => x.Index) := by
  induction rest with
  | nil => intro prev; rfl
  | cons x rest ih => intro prev; simp [runningCDF, ih]

theorem runningCDF_strict {W : Type} [LinearOrderedAddCommGroup W]
    (rest : List (WeightedItemG W)) :
    ∀ prev, (∀ x ∈ rest, 0 < x.Weight) →
      List.Pairwise weightLT (runningCDF prev rest) ∧
        ∀ y ∈ runningCDF prev rest, prev < y.Weight := by
  induction rest with
  | nil => intro prev _; exact ⟨List.Pairwise.nil, by simp [runningCDF]⟩
  | cons x rest ih =>
    intro prev hpos
    have hx : 0 < x.Weight := hpos x (List.mem_cons_self x rest)
    obtain ⟨hpw, hlb⟩ := ih (prev + x.Weight) (fun y hy => hpos y (List.mem_cons_of_mem x hy))
    refine ⟨List.Pairwise.cons (fun y hy => hlb y hy) hpw, ?_⟩
    intro y hy
    rcases List.mem_cons.mp hy with rfl | hy
    · simpa using lt_add_of_pos_right prev hx
    · exact lt_trans (lt_add_of_pos_right prev hx) (hlb y hy)

theorem runningCDF_get? {W : Type} [AddCommMonoid W] (rest : List (WeightedItemG W)) :
    ∀ (prev : W) (i : Nat), i < rest.length →
      ∃ z, (runningCDF prev rest).get? i = some z ∧
        z.Weight = prev + ((rest.map (fun x => x.Weight)).take (i + 1)).sum := by
  induction rest with
  | nil => intro prev i hi; simp at hi
  | cons x rest ih =>
    intro prev i hi
    cases i with
    | zero => exact ⟨⟨prev + x.Weight, x.Index⟩, rfl, by simp⟩
    | succ i =>
      obtain ⟨z, hz, hw⟩ := ih (prev + x.Weight) i (by simpa using Nat.lt_of_succ_lt_succ hi)
      refine ⟨z, ?_, ?_⟩
      · rw [runningCDF]
        simpa using hz
      · rw [hw]
        simp [add_assoc]

theorem built_pairwise {W : Type} [LinearOrderedAddCommGroup W] (first : WeightedItemG W)
    (rest : List (WeightedItemG W)) (_hw : 0 < first.Weight)
    (hpos : ∀ x ∈ rest, 0 < x.Weight) :
    List.Pairwise weightLT (first :: runningCDF first.Weight rest) := by
  obtain ⟨hpw, hlb⟩ := runningCDF_strict rest first.Weight hpos
  exact List.Pairwise.cons (fun y hy => hlb y hy) hpw

theorem built_last {W : Type} [AddCommMonoid W] (first : WeightedItemG W)
    (rest : List (WeightedItemG W)) :
    ∃ z, (first :: runningCDF first.Weight rest).get?
        ((first :: runningCDF first.Weight rest).length - 1) = some z ∧
      z.Weight = first.Weight + (rest.map (fun x => x.Weight)).sum := by
  cases rest with
  | nil => exact ⟨first, rfl, by simp⟩
  | cons x rest =>
    obtain ⟨z, hz, hw⟩ := runningCDF_get? (x :: rest) first.Weight rest.length (by simp)
    refine ⟨z, ?_, ?_⟩
    · have hlen : (first :: runningCDF first.Weight (x :: rest)).length - 1 = rest.length + 1 := by
        simp [runningCDF_length]
      rw [hlen, List.get?_cons_succ]
      exact hz
    · rw [hw]
      have htake : ((x :: rest).map (fun y => y.Weight)).take (rest.length + 1)
          = (x :: rest).map (fun y => y.Weight) := by
        apply List.take_of_length_le
        simp
      rw [htake]

/-! ### Helper lemmas: facts about a successfully built distribution -/

theorem BuildCDF_ok_facts (s out : List WeightedItem) (h : BuildCDF s = (none, out)) :
    List.Pairwise weightLT out ∧ 0 < out.length ∧
      (∃ z, out.get? (out.length - 1) = some z ∧ z.Weight = totalWeight out) ∧
      totalWeight out = (s.map (fun x => x.Weight)).sum ∧
      0 < totalWeight out ∧
      List.Perm (out.map (fun x => x.Index)) (s.map (fun x => x.Index)) := by
  obtain ⟨first, rest, hsort, hw, rfl⟩ := (BuildCDF_ok_iff s out).mp h
  have hpos := sorted_tail_pos s first rest hsort hw
  obtain ⟨z, hz, hzw⟩ := built_last first rest
  have htot : totalWeight (first :: runningCDF first.Weight rest) = z.Weight := by
    rw [totalWeight, hz]
    rfl
  have hsum : (s.map (fun x => x.Weight)).sum
      = first.Weight + (rest.map (fun x => x.Weight)).sum := by
    have hperm : List.Perm ((first :: rest).map (fun x => x.Weight))
        (s.map (fun x => x.Weight)) := by
      rw [← hsort]
      exact (sortByWeight_perm s).map _
    rw [← hperm.sum_eq]
    simp
  refine ⟨built_pairwise first rest hw hpos, by simp, ⟨z, hz, htot.symm⟩, ?_, ?_, ?_⟩
  · rw [htot, hzw, hsum]
  · rw [htot, hzw]
    have : 0 ≤ (rest.map (fun x => x.Weight)).sum :=
      List.sum_nonneg (by
        intro a ha
        obtain ⟨x, hx, rfl⟩ := List.mem_map.mp ha
        exact le_of_lt (hpos x hx))
    omega
  · have h1 : (first :: runningCDF first.Weight rest).map (fun x => x.Index)
        = (first :: rest).map (fun x => x.Index) := by
      simp [runningCDF_map_index]
    rw [h1, ← hsort]
    exact (sortByWeight_perm s).map _

theorem BuildCDFFloat_ok_facts (s out : List WeightedItemFloat)
    (h : BuildCDFFloat s = (none, out)) :
    List.Pairwise weightLT out ∧ 0 < out.length ∧
      (∃ z, out.get? (out.length - 1) = some z ∧ z.Weight = totalWeightFloat out) ∧
      totalWeightFloat out = (s.map (fun x => x.Weight)).sum ∧
      0 < totalWeightFloat out ∧
      List.Perm (out.map (fun x => x.Index)) (s.map (fun x => x.Index)) := by
  obtain ⟨first, rest, hsort, hw, rfl⟩ := (BuildCDFFloat_ok_iff s out).mp h
  have hpos := sorted_tail_pos s first rest hsort hw
  obtain ⟨z, hz, hzw⟩ := built_last first rest
  have htot : totalWeightFloat (first :: runningCDF first.Weight rest) = z.Weight := by
    rw [totalWeightFloat, hz]
    rfl
  have hsum : (s.map (fun x => x.Weight)).sum
      = first.Weight + (rest.map (fun x => x.Weight)).sum := by
    have hperm : List.Perm ((first :: rest).map (fun x => x.Weight))
        (s.map (fun x => x.Weight)) := by
      rw [← hsort]
      exact (sortByWeight_perm s).map _
    rw [← hperm.sum_eq]
    simp
  refine ⟨built_pairwise first rest hw hpos, by simp, ⟨z, hz, htot.symm⟩, ?_, ?_, ?_⟩
  · rw [htot, hzw, hsum]
  · rw [htot, hzw]
    have h0 : 0 ≤ (rest.map (fun x => x.Weight)).sum :=
      List.sum_nonneg (by
        intro a ha
        obtain ⟨x, hx, rfl⟩ := List.mem_map.mp ha
        exact le_of_lt (hpos x hx))
    linarith
  · have h1 : (first :: runningCDF first.Weight rest).map (fun x => x.Index)
        = (first :: rest).map (fun x => x.Index) := by
      simp [runningCDF_map_index]
    rw [h1, ← hsort]
    exact (sortByWeight_perm s).map _

/-! ### Helper lemma: the binary-search loop terminates inside the slice

The invariant is: `left ≤ right < s.length`, the drawn value is at most the
weight at `right`, and the weight just before `left` (if any) is below the
drawn value. Under it the loop always returns the `Index` of some element of
`s` before the fuel `right - left + 1` runs out and without any out-of-bounds
access. -/

theorem searchLoop_mem {W : Type} [LinearOrder W] (eqT : W → W → Bool)
    (s : List (WeightedItemG W)) (num : W) :
    ∀ (fuel left right : Nat), left ≤ right → right < s.length →
      (∀ x, s.get? right = some x → num ≤ x.Weight) →
      (left = 0 ∨ ∀ x, s.get? (left - 1) = some x → x.Weight < num) →
      right - left < fuel →
      ∃ x ∈ s, searchLoop eqT s num fuel left right = some x.Index := by
  intro fuel
  induction fuel with
  | zero => intro left right _ _ _ _ hfuel; omega
  | succ fuel ih =>
    intro left right hlr hr hnum hleft hfuel
    have hmlt : (left + right) / 2 < s.length := by omega
    obtain ⟨im, him⟩ : ∃ im, s.get? ((left + right) / 2) = some im :=
      ⟨s.get ⟨(left + right) / 2, hmlt⟩, List.get?_eq_get hmlt⟩
    simp only [searchLoop, him]
    by_cases heq : eqT im.Weight num = true
    · rw [if_pos heq]
      exact ⟨im, List.get?_mem him, rfl⟩
    · rw [if_neg heq]
      by_cases hlt : im.Weight < num
      · rw [if_pos hlt]
        by_cases hend : (left + right) / 2 = s.length - 1
        · rw [if_pos hend]
          exact ⟨im, List.get?_mem him, rfl⟩
        · rw [if_neg hend]
          have hm1 : (left + right) / 2 + 1 < s.length := by omega
          obtain ⟨im1, him1⟩ : ∃ im1, s.get? ((left + right) / 2 + 1) = some im1 :=
            ⟨s.get ⟨(left + right) / 2 + 1, hm1⟩, List.get?_eq_get hm1⟩
          simp only [him1]
          by_cases hgt : num < im1.Weight
          · rw [if_pos hgt]
            exact ⟨im1, List.get?_mem him1, rfl⟩
          · rw [if_neg hgt]
            have hmr : (left + right) / 2 < right := by
              rcases Nat.lt_or_ge ((left + right) / 2) right with h | h
              · exact h
              · exfalso
                have hmeq : (left + right) / 2 = right := by omega
                rw [hmeq] at him
                exact absurd (hnum im him) (not_le.mpr hlt)
            apply ih ((left + right) / 2 + 1) right (by omega) hr hnum ?_ (by omega)
            right
            intro x hx
            rw [Nat.add_sub_cancel, him] at hx
            injection hx with h2
            rw [← h2]
            exact hlt
      · rw [if_neg hlt]
        by_cases hzero : (left + right) / 2 = 0
        · rw [if_pos hzero]
          exact ⟨im, List.get?_mem him, rfl⟩
        · rw [if_neg hzero]
          have hm0 : (left + right) / 2 - 1 < s.length := by omega
          obtain ⟨im0, him0⟩ : ∃ im0, s.get? ((left + right) / 2 - 1) = some im0 :=
            ⟨s.get ⟨(left + right) / 2 - 1, hm0⟩, List.get?_eq_get hm0⟩
          simp only [him0]
          by_cases hle : im0.Weight ≤ num
          · rw [if_pos hle]
            exact ⟨im, List.get?_mem him, rfl⟩
          · rw [if_neg hle]
            have hlm : left < (left + right) / 2 := by
              rcases hleft with h0 | hprev
              · omega
              · rcases Nat.lt_or_ge left ((left + right) / 2) with h | h
                · exact h
                · exfalso
                  have hmeq : (left + right) / 2 - 1 = left - 1 := by omega
                  rw [hmeq] at him0
                  exact absurd (hprev im0 him0) (not_lt.mpr (le_of_lt (not_le.mp hle)))
            apply ih left ((left + right) / 2 - 1) (by omega) (by omega) ?_ hleft (by omega)
            intro x hx
            rw [him0] at hx
            injection hx with h2
            rw [← h2]
            exact le_of_lt (not_le.mp hle)

theorem sortByWeight_map_weight (s : List WeightedItem) :
    (sortByWeight s).map (fun x => x.Weight) = sortedWeights s := by
  have hperm : List.Perm ((sortByWeight s).map (fun x => x.Weight)) (sortedWeights s) := by
    rw [sortedWeights]
    refine List.Perm.trans ((sortByWeight_perm s).map _) ?_
    exact (List.perm_insertionSort (fun a b : Int => a ≤ b) (s.map (fun x => x.Weight))).symm
  have hs1 : List.Sorted (fun a b : Int => a ≤ b) ((sortByWeight s).map (fun x => x.Weight)) :=
    List.pairwise_map.mpr (sortByWeight_sorted s)
  have hs2 : List.Sorted (fun a b : Int => a ≤ b) (sortedWeights s) := by
    rw [sortedWeights]
    exact List.sorted_insertionSort (fun a b : Int => a ≤ b) (s.map (fun x => x.Weight))
  exact List.eq_of_perm_of_sorted hperm hs1 hs2

/-- Search result membership for a successfully built integer distribution:
the search returns the `Index` of one of the items of the final array. -/
theorem searchCDF_mem (s out : List WeightedItem) (num : Int)
    (h : BuildCDF s = (none, out)) (hnum : num ≤ totalWeight out) :
    ∃ x ∈ out, searchCDF out num = some x.Index := by
  obtain ⟨-, hlen, ⟨z, hz, hzw⟩, -, -, -⟩ := BuildCDF_ok_facts s out h
  refine searchLoop_mem (fun a b => a == b) out num out.length 0 (out.length - 1)
    (by omega) (by omega) ?_ (Or.inl rfl) (by omega)
  intro x hx
  rw [hz] at hx
  injection hx with h2
  rw [← h2, hzw]
  exact hnum

/-- Search result membership for a successfully built float distribution. -/
theorem searchCDFFloat_mem (s out : List WeightedItemFloat) (num : ℚ)
    (h : BuildCDFFloat s = (none, out)) (hnum : num ≤ totalWeightFloat out) :
    ∃ x ∈ out, searchCDFFloat out num = some x.Index := by
  obtain ⟨-, hlen, ⟨z, hz, hzw⟩, -, -, -⟩ := BuildCDFFloat_ok_facts s out h
  refine searchLoop_mem (fun a b => decide (|a - b| ≤ EPSILON)) out num out.length 0
    (out.length - 1) (by omega) (by omega) ?_ (Or.inl rfl) (by omega)
  intro x hx
  rw [hz] at hx
  injection hx with h2
  rw [← h2, hzw]
  exact hnum

/-- Transfer of an `Index` from the built array back to an original item. -/
theorem index_back_to_source {W : Type} (s out : List (WeightedItemG W))
    (hperm : List.Perm (out.map (fun x => x.Index)) (s.map (fun x => x.Index)))
    (x : WeightedItemG W) (hx : x ∈ out) : ∃ y ∈ s, y.Index = x.Index := by
  have h1 : x.Index ∈ out.map (fun x => x.Index) := List.mem_map_of_mem _ hx
  have h2 : x.Index ∈ s.map (fun x => x.Index) := hperm.mem_iff.mp h1
  obtain ⟨y, hy, hyx⟩ := List.mem_map.mp h2
  exact ⟨y, hy, hyx⟩

/-! ### Helper lemmas: the wrapping integer build -/

theorem wrap64_eq_self (x : Int) (h1 : -(2 ^ 63) ≤ x) (h2 : x < 2 ^ 63) :
    wrap64 x = x := by
  rw [wrap64]
  omega

theorem accumLoopWrap_pos (rest : List WeightedItem) :
    ∀ (done : List WeightedItem) (prev : Int), (∀ x ∈ rest, 0 < x.Weight) →
      accumLoopWrap done prev rest = (none, done.reverse ++ runningCDFWrap prev rest) := by
  induction rest with
  | nil => intro done prev _; simp [accumLoopWrap, runningCDFWrap]
  | cons x rest ih =>
    intro done prev hpos
    have hx : ¬ x.Weight ≤ 0 := not_le.mpr (hpos x (List.mem_cons_self x rest))
    rw [accumLoopWrap, if_neg hx,
      ih (⟨wrap64 (prev + x.Weight), x.Index⟩ :: done) (wrap64 (prev + x.Weight))
        (fun y hy => hpos y (List.mem_cons_of_mem x hy))]
    simp [runningCDFWrap]

theorem BuildCDFWrap_cons (s : List WeightedItem) (first : WeightedItem)
    (rest : List WeightedItem) (hsort : sortByWeight s = first :: rest) :
    BuildCDFWrap s = if first.Weight ≤ 0 then (some .nonPositiveWeight, first :: rest)
      else accumLoopWrap [first] first.Weight rest := by
  have h1 := sortByWeight_length s
  rw [hsort, List.length_cons] at h1
  have hlen : ¬ s.length ≤ 0 := by omega
  rw [BuildCDFWrap, if_neg hlen, hsort]

theorem BuildCDFWrap_ok_shape (s out : List WeightedItem)
    (h : BuildCDFWrap s = (none, out)) :
    ∃ first rest, sortByWeight s = first :: rest ∧ 0 < first.Weight ∧
      out = first :: runningCDFWrap first.Weight rest := by
  have hne : s ≠ [] := by
    intro hnil
    subst hnil
    simp [BuildCDFWrap] at h
  obtain ⟨first, rest, hsort⟩ := sortByWeight_ne_nil s hne
  rw [BuildCDFWrap_cons s first rest hsort] at h
  by_cases hw : first.Weight ≤ 0
  · rw [if_pos hw] at h; simp at h
  · rw [if_neg hw,
      accumLoopWrap_pos rest [first] first.Weight
        (sorted_tail_pos s first rest hsort (not_le.mp hw))] at h
    rw [Prod.mk.injEq] at h
    exact ⟨first, rest, hsort, not_le.mp hw, by simpa using h.2.symm⟩

theorem BuildCDFWrap_ok_pos (s out : List WeightedItem)
    (h : BuildCDFWrap s = (none, out)) : ∀ x ∈ s, 0 < x.Weight := by
  obtain ⟨first, rest, hsort, hw, -⟩ := BuildCDFWrap_ok_shape s out h
  intro x hx
  have hmem : x ∈ sortByWeight s := by
    unfold sortByWeight
    exact (List.mem_insertionSort weightLE).mpr hx
  rw [hsort] at hmem
  rcases List.mem_cons.mp hmem with rfl | hmem2
  · exact hw
  · exact sorted_tail_pos s first rest hsort hw x hmem2

theorem runningCDFWrap_map_index (rest : List WeightedItem) :
    ∀ prev, (runningCDFWrap prev rest).map (fun x => x.Index)
      = rest.map (fun x => x.Index) := by
  induction rest with
  | nil => intro prev; rfl
  | cons x rest ih => intro prev; simp [runningCDFWrap, ih]

theorem accumLoopWrap_no_overflow (rest : List WeightedItem) :
    ∀ (done : List WeightedItem) (prev : Int), (∀ x ∈ rest, 0 < x.Weight) →
      0 ≤ prev → prev + (rest.map (fun x => x.Weight)).sum < 2 ^ 63 →
      accumLoopWrap done prev rest = accumLoop done prev rest := by
  induction rest with
  | nil => intro done prev _ _ _; rfl
  | cons x rest ih =>
    intro done prev hpos hprev hsum
    have hx : 0 < x.Weight := hpos x (List.mem_cons_self x rest)
    have hxle : ¬ x.Weight ≤ 0 := not_le.mpr hx
    have hrest0 : 0 ≤ (rest.map (fun x => x.Weight)).sum :=
      List.sum_nonneg (by
        intro a ha
        obtain ⟨y, hy, rfl⟩ := List.mem_map.mp ha
        exact le_of_lt (hpos y (List.mem_cons_of_mem x hy)))
    have hsum2 : (prev + x.Weight) + (rest.map (fun x => x.Weight)).sum < 2 ^ 63 := by
      rw [List.map_cons, List.sum_cons] at hsum
      omega
    have hwrap : wrap64 (prev + x.Weight) = prev + x.Weight :=
      wrap64_eq_self (prev + x.Weight) (by omega) (by omega)
    rw [accumLoopWrap, accumLoop, if_neg hxle, if_neg hxle, hwrap]
    exact ih (⟨prev + x.Weight, x.Index⟩ :: done) (prev + x.Weight)
      (fun y hy => hpos y (List.mem_cons_of_mem x hy)) (by omega) hsum2

theorem BuildCDFWrap_no_overflow (s : List WeightedItem)
    (hpos : ∀ x ∈ s, 0 < x.Weight)
    (htot : (s.map (fun x => x.Weight)).sum < 2 ^ 63) :
    BuildCDFWrap s = BuildCDF s := by
  by_cases hne : s = []
  · subst hne; rfl
  · obtain ⟨first, rest, hsort⟩ := sortByWeight_ne_nil s hne
    rw [BuildCDFWrap_cons s first rest hsort, BuildCDF_cons s first rest hsort]
    by_cases hw : first.Weight ≤ 0
    · rw [if_pos hw, if_pos hw]
    · rw [if_neg hw, if_neg hw]
      have hposr : ∀ x ∈ rest, 0 < x.Weight :=
        sorted_tail_pos s first rest hsort (not_le.mp hw)
      have hsum : first.Weight + (rest.map (fun x => x.Weight)).sum < 2 ^ 63 := by
        have hperm : List.Perm ((first :: rest).map (fun x => x.Weight))
            (s.map (fun x => x.Weight)) := by
          rw [← hsort]
          exact (sortByWeight_perm s).map _
        have h2 := hperm.sum_eq
        rw [List.map_cons, List.sum_cons] at h2
        omega
      exact accumLoopWrap_no_overflow rest [first] first.Weight hposr
        (le_of_lt (not_le.mp hw)) hsum

/-- The last entry of a non-empty array is what `totalWeight` reads. -/
theorem totalWeight_last (out : List WeightedItem) (h : out ≠ []) :
    ∃ z, out.get? (out.length - 1) = some z ∧ z.Weight = totalWeight out := by
  have hlen : 0 < out.length := List.length_pos.mpr h
  have hlt : out.length - 1 < out.length := by omega
  refine ⟨out.get ⟨out.length - 1, hlt⟩, List.get?_eq_get hlt, ?_⟩
  rw [totalWeight, List.get?_eq_get hlt]
  rfl

/-! ### Helper lemma: the binary search when the drawn value exceeds every entry

When the drawn value is above the weight stored at the last position of a
non-decreasing array (the float draw produces such values whenever the total
weight is below 1), every probed middle satisfies `valm < num` and the
neighbour guard `s[m+1].Weight > num` is false, so the loop walks right and
returns an element of the array — the last one — before the fuel `s.length`
runs out. -/

theorem get_weight_le_last {W : Type} [LinearOrder W] (s : List (WeightedItemG W))
    (hpw : List.Pairwise weightLE s) (i : Nat) (hi : i < s.length)
    (hlast : s.length - 1 < s.length) :
    (s.get ⟨i, hi⟩).Weight ≤ (s.get ⟨s.length - 1, hlast⟩).Weight := by
  rcases Nat.lt_or_ge i (s.length - 1) with h | h
  · exact List.pairwise_iff_get.mp hpw ⟨i, hi⟩ ⟨s.length - 1, hlast⟩ h
  · have heq : i = s.length - 1 := by omega
    subst heq
    exact le_refl _

theorem searchLoop_mem_above {W : Type} [LinearOrder W] (eqT : W → W → Bool)
    (s : List (WeightedItemG W)) (num : W) (hpw : List.Pairwise weightLE s) :
    ∀ (fuel left : Nat), left < s.length →
      (∀ x, s.get? (s.length - 1) = some x → x.Weight < num) →
      (s.length - 1) - left < fuel →
      ∃ x ∈ s, searchLoop eqT s num fuel left (s.length - 1) = some x.Index := by
  intro fuel
  induction fuel with
  | zero => intro left _ _ hfuel; omega
  | succ fuel ih =>
    intro left hl hnum hfuel
    have hmlt : (left + (s.length - 1)) / 2 < s.length := by omega
    have hlast : s.length - 1 < s.length := by omega
    have him : s.get? ((left + (s.length - 1)) / 2)
        = some (s.get ⟨(left + (s.length - 1)) / 2, hmlt⟩) := List.get?_eq_get hmlt
    have hzlast : s.get? (s.length - 1)
        = some (s.get ⟨s.length - 1, hlast⟩) := List.get?_eq_get hlast
    have hzn : (s.get ⟨s.length - 1, hlast⟩).Weight < num := hnum _ hzlast
    have hlt : (s.get ⟨(left + (s.length - 1)) / 2, hmlt⟩).Weight < num :=
      lt_of_le_of_lt (get_weight_le_last s hpw _ hmlt hlast) hzn
    simp only [searchLoop, him]
    by_cases heq : eqT (s.get ⟨(left + (s.length - 1)) / 2, hmlt⟩).Weight num = true
    · rw [if_pos heq]
      exact ⟨_, List.get?_mem him, rfl⟩
    · rw [if_neg heq, if_pos hlt]
      by_cases hend : (left + (s.length - 1)) / 2 = s.length - 1
      · rw [if_pos hend]
        exact ⟨_, List.get?_mem him, rfl⟩
      · rw [if_neg hend]
        have hm1 : (left + (s.length - 1)) / 2 + 1 < s.length := by omega
        have him1 : s.get? ((left + (s.length - 1)) / 2 + 1)
            = some (s.get ⟨(left + (s.length - 1)) / 2 + 1, hm1⟩) := List.get?_eq_get hm1
        simp only [him1]
        have hlt1 : (s.get ⟨(left + (s.length - 1)) / 2 + 1, hm1⟩).Weight < num :=
          lt_of_le_of_lt (get_weight_le_last s hpw _ hm1 hlast) hzn
        rw [if_neg (not_lt.mpr (le_of_lt hlt1))]
        exact ih ((left + (s.length - 1)) / 2 + 1) hm1 hnum (by omega)

/-! ### Claim theorems -/

/-- C3: `BuildCDF` (both variants) returns an error if and only if the
collection is empty or contains some weight ≤ 0: every non-empty all-positive
collection builds successfully (error `none`, the draw closure is produced over
the final array); every empty collection yields the `EmptyInput` error; every
collection containing a weight ≤ 0 yields the `NonPositiveWeight` error. -/
theorem C3_BuildCDF_error_iff (s : List WeightedItem) (sf : List WeightedItemFloat) :
    (s ≠ [] → (∀ x ∈ s, 0 < x.Weight) → ∃ out, BuildCDF s = (none, out)) ∧
    (s = [] → BuildCDF s = (some BuildErr.emptyInput, s)) ∧
    ((∃ x ∈ s, x.Weight ≤ 0) → ∃ t, BuildCDF s = (some BuildErr.nonPositiveWeight, t)) ∧
    (sf ≠ [] → (∀ x ∈ sf, 0 < x.Weight) → ∃ out, BuildCDFFloat sf = (none, out)) ∧
    (sf = [] → BuildCDFFloat sf = (some BuildErr.emptyInput, sf)) ∧
    ((∃ x ∈ sf, x.Weight ≤ 0) → ∃ t, BuildCDFFloat sf = (some BuildErr.nonPositiveWeight, t)) := by
  refine ⟨?_, ?_, ?_, ?_, ?_, ?_⟩
  · intro hne hpos
    obtain ⟨first, rest, hsort⟩ := sortByWeight_ne_nil s hne
    have hw : 0 < first.Weight := by
      have hmem : first ∈ sortByWeight s := by rw [hsort]; exact List.mem_cons_self _ _
      rw [sortByWeight] at hmem
      exact hpos first ((List.mem_insertionSort weightLE).mp hmem)
    exact ⟨first :: runningCDF first.Weight rest,
      (BuildCDF_ok_iff s _).mpr ⟨first, rest, hsort, hw, rfl⟩⟩
  · intro h; subst h; rfl
  · rintro ⟨x, hx, hxw⟩
    have hne : s ≠ [] := by intro h; subst h; exact absurd hx (List.not_mem_nil x)
    obtain ⟨first, rest, hsort⟩ := sortByWeight_ne_nil s hne
    have hle : first.Weight ≤ 0 := (sorted_head_min s first rest hsort).mp ⟨x, hx, hxw⟩
    exact ⟨first :: rest, by rw [BuildCDF_cons s first rest hsort, if_pos hle]⟩
  · intro hne hpos
    obtain ⟨first, rest, hsort⟩ := sortByWeight_ne_nil sf hne
    have hw : 0 < first.Weight := by
      have hmem : first ∈ sortByWeight sf := by rw [hsort]; exact List.mem_cons_self _ _
      rw [sortByWeight] at hmem
      exact hpos first ((List.mem_insertionSort weightLE).mp hmem)
    exact ⟨first :: runningCDF first.Weight rest,
      (BuildCDFFloat_ok_iff sf _).mpr ⟨first, rest, hsort, hw, rfl⟩⟩
  · intro h; subst h; rfl
  · rintro ⟨x, hx, hxw⟩
    have hne : sf ≠ [] := by intro h; subst h; exact absurd hx (List.not_mem_nil x)
    obtain ⟨first, rest, hsort⟩ := sortByWeight_ne_nil sf hne
    have hle : first.Weight ≤ 0 := (sorted_head_min sf first rest hsort).mp ⟨x, hx, hxw⟩
    exact ⟨first :: rest, by rw [BuildCDFFloat_cons sf first rest hsort, if_pos hle]⟩

theorem C3_witness :
    (∃ out, BuildCDF [⟨2, 0⟩] = (none, out)) ∧
    BuildCDF ([] : List WeightedItem) = (some BuildErr.emptyInput, []) ∧
    (∃ t, BuildCDF [⟨5, 0⟩, ⟨0, 1⟩, ⟨3, 2⟩] = (some BuildErr.nonPositiveWeight, t)) ∧
    (∃ out, BuildCDFFloat [⟨2, 0⟩] = (none, out)) ∧
    BuildCDFFloat ([] : List WeightedItemFloat) = (some BuildErr.emptyInput, []) ∧
    (∃ t, BuildCDFFloat [⟨3, 0⟩, ⟨-1, 1⟩] = (some BuildErr.nonPositiveWeight, t)) :=
  ⟨(C3_BuildCDF_error_iff [⟨2, 0⟩] []).1 (by decide) (by decide),
   (C3_BuildCDF_error_iff [] []).2.1 rfl,
   (C3_BuildCDF_error_iff [⟨5, 0⟩, ⟨0, 1⟩, ⟨3, 2⟩] []).2.2.1
     ⟨⟨0, 1⟩, by decide, by decide⟩,
   (C3_BuildCDF_error_iff [] [⟨2, 0⟩]).2.2.2.1 (by decide) (by decide),
   (C3_BuildCDF_error_iff [] []).2.2.2.2.1 rfl,
   (C3_BuildCDF_error_iff [] [⟨3, 0⟩, ⟨-1, 1⟩]).2.2.2.2.2
     ⟨⟨-1, 1⟩, by decide, by decide⟩⟩

/-- C4 counterexample: the claim as stated fails on the program because Go's
64-bit `int` addition wraps. The collection of three weights `2^62` is
non-empty and all-positive and builds successfully, but the stored cumulative
values are `[2^62, -2^63, -2^62]`: the entry at position 1 is `-2^63`, not
`2^63` (the sum of the two smallest original weights), the stored sequence is
not non-decreasing, and consecutive entries are not strictly increasing. -/
theorem C4_counterexample :
    ([⟨2 ^ 62, 0⟩, ⟨2 ^ 62, 1⟩, ⟨2 ^ 62, 2⟩] : List WeightedItem) ≠ [] ∧
    (∀ x ∈ ([⟨2 ^ 62, 0⟩, ⟨2 ^ 62, 1⟩, ⟨2 ^ 62, 2⟩] : List WeightedItem),
      0 < x.Weight) ∧
    BuildCDFWrap [⟨2 ^ 62, 0⟩, ⟨2 ^ 62, 1⟩, ⟨2 ^ 62, 2⟩]
      = (none, [⟨2 ^ 62, 0⟩, ⟨-(2 ^ 63), 1⟩, ⟨-(2 ^ 62), 2⟩]) ∧
    ([⟨2 ^ 62, 0⟩, ⟨-(2 ^ 63), 1⟩, ⟨-(2 ^ 62), 2⟩] : List WeightedItem).map
      (fun x => x.Weight) = [2 ^ 62, -(2 ^ 63), -(2 ^ 62)] ∧
    ((sortedWeights [⟨2 ^ 62, 0⟩, ⟨2 ^ 62, 1⟩, ⟨2 ^ 62, 2⟩]).take 2).sum = 2 ^ 63 ∧
    ([⟨2 ^ 62, 0⟩, ⟨-(2 ^ 63), 1⟩, ⟨-(2 ^ 62), 2⟩] : List WeightedItem).get? 1
      = some ⟨-(2 ^ 63), 1⟩ ∧
    (-(2 ^ 63) : Int) ≠ 2 ^ 63 ∧
    ¬ List.Sorted (fun a b : Int => a ≤ b) [(2 : Int) ^ 62, -(2 ^ 63), -(2 ^ 62)] ∧
    ¬ List.Chain' (fun a b : Int => a < b) [(2 : Int) ^ 62, -(2 ^ 63), -(2 ^ 62)] := by
  refine ⟨by decide, by decide, by decide, by decide, by decide, by decide, by decide,
    by decide, ?_⟩
  norm_num [List.chain'_cons]

/-- C4 (amended): for every non-empty, all-positive integer weight collection
WHOSE TOTAL WEIGHT FITS IN A SIGNED 64-BIT INT (sum of weights below `2^63`,
so no accumulation step overflows), after a successful `BuildCDF` — modelled
with Go's wrapping 64-bit addition — the caller's array holds at each
position `i` the sum of the `i+1` smallest original weights (so the last
entry is the total), the stored weight sequence is non-decreasing, and
consecutive entries are strictly increasing. `sortedWeights s` is the
ascending sort of the original weights (first two conjuncts), so its
`take (i+1)` is exactly the `i+1` smallest original weights. Without the
no-overflow proviso the claim fails (see the counterexample). -/
theorem C4_BuildCDF_prefix_sums (s out : List WeightedItem)
    (_hne : s ≠ []) (hpos : ∀ x ∈ s, 0 < x.Weight)
    (htot : (s.map (fun x => x.Weight)).sum < 2 ^ 63)
    (hok : BuildCDFWrap s = (none, out)) :
    List.Perm (sortedWeights s) (s.map (fun x => x.Weight)) ∧
    List.Sorted (fun a b : Int => a ≤ b) (sortedWeights s) ∧
    (∀ i, i < out.length → ∃ z, out.get? i = some z ∧
      z.Weight = ((sortedWeights s).take (i + 1)).sum) ∧
    List.Sorted (fun a b : Int => a ≤ b) (out.map (fun x => x.Weight)) ∧
    List.Chain' (fun a b : Int => a < b) (out.map (fun x => x.Weight)) ∧
    (∃ z, out.get? (out.length - 1) = some z ∧
      z.Weight = (s.map (fun x => x.Weight)).sum) := by
  rw [BuildCDFWrap_no_overflow s hpos htot] at hok
  obtain ⟨first, rest, hsort, hw, houtdef⟩ := (BuildCDF_ok_iff s out).mp hok
  have hpos2 := sorted_tail_pos s first rest hsort hw
  have hmapw : sortedWeights s = first.Weight :: rest.map (fun x => x.Weight) := by
    rw [← sortByWeight_map_weight, hsort, List.map_cons]
  have hpw : List.Pairwise weightLT out := by
    rw [houtdef]; exact built_pairwise first rest hw hpos2
  refine ⟨?_, ?_, ?_, ?_, ?_, ?_⟩
  · rw [sortedWeights]
    exact List.perm_insertionSort (fun a b : Int => a ≤ b) (s.map (fun x => x.Weight))
  · rw [sortedWeights]
    exact List.sorted_insertionSort (fun a b : Int => a ≤ b) (s.map (fun x => x.Weight))
  · intro i hi
    rw [houtdef] at hi ⊢
    cases i with
    | zero => exact ⟨first, rfl, by rw [hmapw]; simp⟩
    | succ i =>
      have hilen : i < rest.length := by
        rw [List.length_cons, runningCDF_length] at hi
        omega
      obtain ⟨z, hz, hzw⟩ := runningCDF_get? rest first.Weight i hilen
      refine ⟨z, by simpa using hz, ?_⟩
      rw [hzw, hmapw]
      simp
  · have h1 : List.Pairwise (fun a b : Int => a < b) (out.map (fun x => x.Weight)) :=
      List.pairwise_map.mpr hpw
    exact h1.imp (fun h => le_of_lt h)
  · have h2 : List.Pairwise (fun a b : Int => a < b) (out.map (fun x => x.Weight)) :=
      List.pairwise_map.mpr hpw
    exact h2.chain'
  · obtain ⟨-, -, ⟨z, hz, hzw⟩, htotz, -, -⟩ := BuildCDF_ok_facts s out hok
    exact ⟨z, hz, by rw [hzw, htotz]⟩

theorem C4_witness :
    List.Perm (sortedWeights [⟨1, 0⟩, ⟨2, 1⟩, ⟨5, 2⟩])
      ([⟨1, 0⟩, ⟨2, 1⟩, ⟨5, 2⟩].map (fun x : WeightedItem => x.Weight)) ∧
    List.Sorted (fun a b : Int => a ≤ b) (sortedWeights [⟨1, 0⟩, ⟨2, 1⟩, ⟨5, 2⟩]) ∧
    (∀ i, i < ([⟨1, 0⟩, ⟨3, 1⟩, ⟨8, 2⟩] : List WeightedItem).length →
      ∃ z, ([⟨1, 0⟩, ⟨3, 1⟩, ⟨8, 2⟩] : List WeightedItem).get? i = some z ∧
        z.Weight = ((sortedWeights [⟨1, 0⟩, ⟨2, 1⟩, ⟨5, 2⟩]).take (i + 1)).sum) ∧
    List.Sorted (fun a b : Int => a ≤ b)
      (([⟨1, 0⟩, ⟨3, 1⟩, ⟨8, 2⟩] : List WeightedItem).map (fun x => x.Weight)) ∧
    List.Chain' (fun a b : Int => a < b)
      (([⟨1, 0⟩, ⟨3, 1⟩, ⟨8, 2⟩] : List WeightedItem).map (fun x => x.Weight)) ∧
    (∃ z, ([⟨1, 0⟩, ⟨3, 1⟩, ⟨8, 2⟩] : List WeightedItem).get?
        (([⟨1, 0⟩, ⟨3, 1⟩, ⟨8, 2⟩] : List WeightedItem).length - 1) = some z ∧
      z.Weight = (([⟨1, 0⟩, ⟨2, 1⟩, ⟨5, 2⟩] : List WeightedItem).map
        (fun x => x.Weight)).sum) :=
  C4_BuildCDF_prefix_sums [⟨1, 0⟩, ⟨2, 1⟩, ⟨5, 2⟩] [⟨1, 0⟩, ⟨3, 1⟩, ⟨8, 2⟩]
    (by decide) (by decide) (by decide) (by decide)


/-- C5: for every successfully built distribution (either variant), every
value returned by the draw function is the `Index` field of one of the items
originally supplied; hence if all input indices lie in `[0, n)`, every draw
result lies in `[0, n)`. Integer half: over the wraparound build
`BuildCDFWrap` (so the statement covers overflowing inputs too); the actual
draw is `num = Intn(total) + 1`, and a draw only happens when `total ≥ 1`, so
the hypotheses `1 ≤ num ≤ total` cover exactly the drawn values. Float half:
parametrised over the raw uniform value `u ∈ [0, 1)`, about the actual drawn
value `u*(total-1)+1` — this covers successfully built distributions with
total weight below 1, where the drawn value exceeds the total and the search
walks to the last entry. Each draw is modelled independently, which covers
any number of consecutive draws. -/
theorem C5_draw_returns_original_index :
    (∀ (s out : List WeightedItem) (num : Int), BuildCDFWrap s = (none, out) →
      1 ≤ num → num ≤ totalWeight out →
      (∃ x ∈ s, searchCDF out num = some x.Index) ∧
      (∀ n : Int, (∀ x ∈ s, 0 ≤ x.Index ∧ x.Index < n) →
        ∀ i, searchCDF out num = some i → 0 ≤ i ∧ i < n)) ∧
    (∀ (s out : List WeightedItemFloat) (u : ℚ), BuildCDFFloat s = (none, out) →
      0 ≤ u → u < 1 →
      (∃ x ∈ s, searchCDFFloat out (drawNumFloat (totalWeightFloat out) u)
        = some x.Index) ∧
      (∀ n : Int, (∀ x ∈ s, 0 ≤ x.Index ∧ x.Index < n) →
        ∀ i, searchCDFFloat out (drawNumFloat (totalWeightFloat out) u) = some i →
          0 ≤ i ∧ i < n)) := by
  constructor
  · intro s out num h h1 h2
    obtain ⟨first, rest, hsort, hw, houtdef⟩ := BuildCDFWrap_ok_shape s out h
    have hne : out ≠ [] := by rw [houtdef]; exact List.cons_ne_nil _ _
    have hlen : 0 < out.length := List.length_pos.mpr hne
    obtain ⟨z, hz, hzw⟩ := totalWeight_last out hne
    have hmem : ∃ x ∈ out, searchCDF out num = some x.Index := by
      refine searchLoop_mem (fun a b => a == b) out num out.length 0 (out.length - 1)
        (by omega) (by omega) ?_ (Or.inl rfl) (by omega)
      intro x hx
      rw [hz] at hx
      injection hx with h3
      rw [← h3, hzw]
      exact h2
    have hperm : List.Perm (out.map (fun x => x.Index)) (s.map (fun x => x.Index)) := by
      have hmi : out.map (fun x => x.Index) = (first :: rest).map (fun x => x.Index) := by
        rw [houtdef]
        simp [runningCDFWrap_map_index]
      rw [hmi, ← hsort]
      exact (sortByWeight_perm s).map _
    obtain ⟨x, hx, hres⟩ := hmem
    obtain ⟨y, hy, hyx⟩ := index_back_to_source s out hperm x hx
    refine ⟨⟨y, hy, by rw [hres, hyx]⟩, ?_⟩
    intro n hn i hi
    rw [hres] at hi
    injection hi with h3
    rw [← h3, ← hyx]
    exact hn y hy
  · intro s out u h hu0 hu1
    obtain ⟨hpwlt, hlen, ⟨z, hz, hzw⟩, -, -, hperm⟩ := BuildCDFFloat_ok_facts s out h
    have hmem : ∃ x ∈ out,
        searchCDFFloat out (drawNumFloat (totalWeightFloat out) u) = some x.Index := by
      by_cases hc : drawNumFloat (totalWeightFloat out) u ≤ totalWeightFloat out
      · exact searchCDFFloat_mem s out (drawNumFloat (totalWeightFloat out) u) h hc
      · have hpwle : List.Pairwise weightLE out := hpwlt.imp (fun hab => le_of_lt hab)
        refine searchLoop_mem_above (fun a b => decide (|a - b| ≤ EPSILON)) out
          (drawNumFloat (totalWeightFloat out) u) hpwle out.length 0 (by omega) ?_ (by omega)
        intro x hx
        rw [hz] at hx
        injection hx with h3
        rw [← h3, hzw]
        exact not_le.mp hc
    obtain ⟨x, hx, hres⟩ := hmem
    obtain ⟨y, hy, hyx⟩ := index_back_to_source s out hperm x hx
    refine ⟨⟨y, hy, by rw [hres, hyx]⟩, ?_⟩
    intro n hn i hi
    rw [hres] at hi
    injection hi with h3
    rw [← h3, ← hyx]
    exact hn y hy

theorem C5_witness :
    ((∃ x ∈ ([⟨1, 0⟩, ⟨2, 1⟩, ⟨5, 2⟩] : List WeightedItem),
      searchCDF [⟨1, 0⟩, ⟨3, 1⟩, ⟨8, 2⟩] 4 = some x.Index) ∧
    (∀ n : Int, (∀ x ∈ ([⟨1, 0⟩, ⟨2, 1⟩, ⟨5, 2⟩] : List WeightedItem),
        0 ≤ x.Index ∧ x.Index < n) →
      ∀ i, searchCDF [⟨1, 0⟩, ⟨3, 1⟩, ⟨8, 2⟩] 4 = some i → 0 ≤ i ∧ i < n)) ∧
    ((∃ x ∈ ([⟨1/5, 0⟩, ⟨3/10, 1⟩] : List WeightedItemFloat),
      searchCDFFloat [⟨1/5, 0⟩, ⟨1/2, 1⟩]
        (drawNumFloat (totalWeightFloat [⟨1/5, 0⟩, ⟨1/2, 1⟩]) 0) = some x.Index) ∧
    (∀ n : Int, (∀ x ∈ ([⟨1/5, 0⟩, ⟨3/10, 1⟩] : List WeightedItemFloat),
        0 ≤ x.Index ∧ x.Index < n) →
      ∀ i, searchCDFFloat [⟨1/5, 0⟩, ⟨1/2, 1⟩]
        (drawNumFloat (totalWeightFloat [⟨1/5, 0⟩, ⟨1/2, 1⟩]) 0) = some i →
        0 ≤ i ∧ i < n)) :=
  ⟨C5_draw_returns_original_index.1 [⟨1, 0⟩, ⟨2, 1⟩, ⟨5, 2⟩] [⟨1, 0⟩, ⟨3, 1⟩, ⟨8, 2⟩] 4
     (by decide) (by decide) (by decide),
   C5_draw_returns_original_index.2 [⟨1/5, 0⟩, ⟨3/10, 1⟩] [⟨1/5, 0⟩, ⟨1/2, 1⟩] 0
     (by norm_num [BuildCDFFloat, sortByWeight, List.insertionSort, List.orderedInsert,
        weightLE, accumLoopFloat, runningCDF])
     (by norm_num) (by norm_num)⟩


/-- C7: for every successfully built distribution (either variant), every call
of the draw closure terminates: for any drawn value `num` in `[1, total]` the
binary-search loop reaches a return statement before the fuel `s.length` is
exhausted (the `log n` time bound itself is out of scope). -/
theorem C7_draw_terminates :
    (∀ (s out : List WeightedItem) (num : Int), BuildCDF s = (none, out) →
      1 ≤ num → num ≤ totalWeight out → (searchCDF out num).isSome = true) ∧
    (∀ (s out : List WeightedItemFloat) (num : ℚ), BuildCDFFloat s = (none, out) →
      1 ≤ num → num ≤ totalWeightFloat out → (searchCDFFloat out num).isSome = true) := by
  constructor
  · intro s out num h _ h2
    obtain ⟨x, -, hres⟩ := searchCDF_mem s out num h h2
    rw [hres]
    rfl
  · intro s out num h _ h2
    obtain ⟨x, -, hres⟩ := searchCDFFloat_mem s out num h h2
    rw [hres]
    rfl

theorem C7_witness :
    (searchCDF [⟨1, 0⟩, ⟨3, 1⟩, ⟨8, 2⟩] 5).isSome = true ∧
    (searchCDFFloat [⟨1, 0⟩, ⟨3, 1⟩, ⟨8, 2⟩] 5).isSome = true :=
  ⟨C7_draw_terminates.1 [⟨1, 0⟩, ⟨2, 1⟩, ⟨5, 2⟩] [⟨1, 0⟩, ⟨3, 1⟩, ⟨8, 2⟩] 5
     (by decide) (by decide) (by decide),
   C7_draw_terminates.2 [⟨1, 0⟩, ⟨2, 1⟩, ⟨5, 2⟩] [⟨1, 0⟩, ⟨3, 1⟩, ⟨8, 2⟩] 5
     (by norm_num [BuildCDFFloat, sortByWeight, List.insertionSort, List.orderedInsert,
        weightLE, accumLoopFloat, runningCDF])
     (by norm_num)
     (by norm_num [totalWeightFloat])⟩

/-- C6 counterexample: the claim "the float variant draws num in
[1, totalWeight]" fails when the total weight is below 1. The collection
with weights 1/5 and 3/10 builds successfully, its total cumulative weight is
1/2, and at the valid uniform value u = 0 the drawn value
u * (total - 1) + 1 = 1 exceeds the total, so num is not in [1, total]. -/
theorem C6_counterexample :
    BuildCDFFloat [⟨1/5, 0⟩, ⟨3/10, 1⟩] = (none, [⟨1/5, 0⟩, ⟨1/2, 1⟩]) ∧
    (0 : ℚ) ≤ 0 ∧ (0 : ℚ) < 1 ∧
    drawNumFloat (totalWeightFloat [⟨1/5, 0⟩, ⟨1/2, 1⟩]) 0 = 1 ∧
    ¬ drawNumFloat (totalWeightFloat [⟨1/5, 0⟩, ⟨1/2, 1⟩]) 0
        ≤ totalWeightFloat [⟨1/5, 0⟩, ⟨1/2, 1⟩] := by
  refine ⟨?_, le_refl 0, by norm_num, ?_, ?_⟩
  · norm_num [BuildCDFFloat, sortByWeight, List.insertionSort, List.orderedInsert,
      weightLE, accumLoopFloat, runningCDF]
  · norm_num [drawNumFloat, totalWeightFloat]
  · norm_num [drawNumFloat, totalWeightFloat]

/-- C6 (amended): each draw generates its random value `num` from the total
weight (the last cumulative entry). Integer variant: `num = v + 1` for the
uniform `v ∈ [0, total)`, so `num` lies in `[1, total]` and the map `v ↦ v+1`
is a bijection onto `{1, ..., total}` (uniformity over that set). Float
variant: `num = u*(total-1) + 1` for the uniform `u ∈ [0, 1)`; PROVIDED the
total weight is at least 1, `num` lies in `[1, total]` (the unamended claim
fails for totals below 1, see the counterexample). -/
theorem C6_draw_value_range :
    (∀ (s out : List WeightedItem) (v : Int), BuildCDF s = (none, out) →
      0 ≤ v → v < totalWeight out →
      1 ≤ drawNumInt v ∧ drawNumInt v ≤ totalWeight out) ∧
    (∀ (s out : List WeightedItem) (k : Int), BuildCDF s = (none, out) →
      1 ≤ k → k ≤ totalWeight out →
      ∃! v : Int, (0 ≤ v ∧ v < totalWeight out) ∧ drawNumInt v = k) ∧
    (∀ (s out : List WeightedItemFloat) (u : ℚ), BuildCDFFloat s = (none, out) →
      1 ≤ totalWeightFloat out → 0 ≤ u → u < 1 →
      1 ≤ drawNumFloat (totalWeightFloat out) u ∧
        drawNumFloat (totalWeightFloat out) u ≤ totalWeightFloat out) := by
  refine ⟨?_, ?_, ?_⟩
  · intro s out v _ h1 h2
    rw [drawNumInt]
    omega
  · intro s out k _ h1 h2
    refine ⟨k - 1, ⟨⟨by omega, by omega⟩, by rw [drawNumInt]; omega⟩, ?_⟩
    rintro y ⟨⟨-, -⟩, hy⟩
    rw [drawNumInt] at hy
    omega
  · intro s out u _ htot hu0 hu1
    rw [drawNumFloat]
    constructor
    · nlinarith
    · nlinarith

theorem C6_witness :
    (1 ≤ drawNumInt 0 ∧ drawNumInt 0 ≤ totalWeight [⟨1, 0⟩, ⟨3, 1⟩, ⟨8, 2⟩]) ∧
    (∃! v : Int, (0 ≤ v ∧ v < totalWeight [⟨1, 0⟩, ⟨3, 1⟩, ⟨8, 2⟩]) ∧ drawNumInt v = 3) ∧
    (1 ≤ drawNumFloat (totalWeightFloat [⟨1, 0⟩, ⟨3, 1⟩, ⟨8, 2⟩]) (1/2) ∧
      drawNumFloat (totalWeightFloat [⟨1, 0⟩, ⟨3, 1⟩, ⟨8, 2⟩]) (1/2)
        ≤ totalWeightFloat [⟨1, 0⟩, ⟨3, 1⟩, ⟨8, 2⟩]) :=
  ⟨C6_draw_value_range.1 [⟨1, 0⟩, ⟨2, 1⟩, ⟨5, 2⟩] [⟨1, 0⟩, ⟨3, 1⟩, ⟨8, 2⟩] 0
     (by decide) (by decide) (by decide),
   C6_draw_value_range.2.1 [⟨1, 0⟩, ⟨2, 1⟩, ⟨5, 2⟩] [⟨1, 0⟩, ⟨3, 1⟩, ⟨8, 2⟩] 3
     (by decide) (by decide) (by decide),
   C6_draw_value_range.2.2 [⟨1, 0⟩, ⟨2, 1⟩, ⟨5, 2⟩] [⟨1, 0⟩, ⟨3, 1⟩, ⟨8, 2⟩] (1/2)
     (by norm_num [BuildCDFFloat, sortByWeight, List.insertionSort, List.orderedInsert,
        weightLE, accumLoopFloat, runningCDF])
     (by norm_num [totalWeightFloat]) (by norm_num) (by norm_num)⟩

/-- C8: in the float variant of `BuildCDF`, the positivity check inside the
accumulation loop (stairs.go line 173) tests the first sorted element, not the
current one; once that first element is positive the in-loop
`NonPositiveWeight` branch is unreachable for EVERY tail (even one holding
non-positive weights), and rejection is decided entirely by the first
post-sort element. -/
theorem C8_float_inloop_check_dead :
    (∀ (head0 prev : ℚ) (done rest : List WeightedItemFloat), 0 < head0 →
      (accumLoopFloat head0 done prev rest).1 = none) ∧
    (∀ sf : List WeightedItemFloat,
      (BuildCDFFloat sf).1 = some BuildErr.nonPositiveWeight ↔
        ∃ first rest, sortByWeight sf = first :: rest ∧ first.Weight ≤ 0) := by
  constructor
  · intro head0 prev done rest h0
    rw [accumLoopFloat_pos rest head0 done prev h0]
  · intro sf
    constructor
    · intro h
      by_cases hne : sf = []
      · subst hne
        simp [BuildCDFFloat] at h
      · obtain ⟨first, rest, hsort⟩ := sortByWeight_ne_nil sf hne
        rw [BuildCDFFloat_cons sf first rest hsort] at h
        by_cases hw : first.Weight ≤ 0
        · exact ⟨first, rest, hsort, hw⟩
        · rw [if_neg hw,
            accumLoopFloat_pos rest first.Weight [first] first.Weight (not_le.mp hw)] at h
          simp at h
    · rintro ⟨first, rest, hsort, hle⟩
      rw [BuildCDFFloat_cons sf first rest hsort, if_pos hle]

theorem C8_witness :
    (accumLoopFloat 1 [⟨1, 0⟩] 1 [⟨-7, 1⟩]).1 = none ∧
    ((BuildCDFFloat [⟨3, 0⟩, ⟨-1, 1⟩]).1 = some BuildErr.nonPositiveWeight ↔
      ∃ first rest, sortByWeight ([⟨3, 0⟩, ⟨-1, 1⟩] : List WeightedItemFloat)
        = first :: rest ∧ first.Weight ≤ 0) :=
  ⟨C8_float_inloop_check_dead.1 1 1 [⟨1, 0⟩] [⟨-7, 1⟩] (by norm_num),
   C8_float_inloop_check_dead.2 [⟨3, 0⟩, ⟨-1, 1⟩]⟩

/-- C9: when the integer `BuildCDF` returns the `NonPositiveWeight` error, the
caller's collection has been permuted into ascending weight order but no
weight has been overwritten with a prefix sum: the final state is exactly the
sorted collection, a permutation of the original (weight, index) pairs, whose
weight sequence is the ascending sort of the original weights. -/
theorem C9_failure_reorders_only (s t : List WeightedItem)
    (h : BuildCDF s = (some BuildErr.nonPositiveWeight, t)) :
    t = sortByWeight s ∧ List.Perm t s ∧
      t.map (fun x => x.Weight) = sortedWeights s := by
  have hne : s ≠ [] := by
    intro hnil
    subst hnil
    simp [BuildCDF] at h
  obtain ⟨first, rest, hsort⟩ := sortByWeight_ne_nil s hne
  rw [BuildCDF_cons s first rest hsort] at h
  by_cases hw : first.Weight ≤ 0
  · rw [if_pos hw, Prod.mk.injEq] at h
    have ht : t = sortByWeight s := by rw [← h.2, hsort]
    exact ⟨ht, ht ▸ sortByWeight_perm s, by rw [ht, sortByWeight_map_weight]⟩
  · rw [if_neg hw,
      accumLoop_pos rest [first] first.Weight
        (sorted_tail_pos s first rest hsort (not_le.mp hw))] at h
    simp at h

theorem C9_witness :
    ([⟨0, 1⟩, ⟨3, 2⟩, ⟨5, 0⟩] : List WeightedItem)
      = sortByWeight [⟨5, 0⟩, ⟨0, 1⟩, ⟨3, 2⟩] ∧
    List.Perm ([⟨0, 1⟩, ⟨3, 2⟩, ⟨5, 0⟩] : List WeightedItem) [⟨5, 0⟩, ⟨0, 1⟩, ⟨3, 2⟩] ∧
    ([⟨0, 1⟩, ⟨3, 2⟩, ⟨5, 0⟩] : List WeightedItem).map (fun x => x.Weight)
      = sortedWeights [⟨5, 0⟩, ⟨0, 1⟩, ⟨3, 2⟩] :=
  C9_failure_reorders_only [⟨5, 0⟩, ⟨0, 1⟩, ⟨3, 2⟩] [⟨0, 1⟩, ⟨3, 2⟩, ⟨5, 0⟩] (by decide)

/-- C10 counterexample: the claim as stated fails on the program because
Go's 64-bit `int` addition wraps. Four weights of `2^62` are all positive and
build successfully, but the stored cumulative values wrap to
`[2^62, -2^63, -2^62, 0]`: the total weight read by the draw (the last
entry) is `0`, so the very first draw calls `rand.Intn(0)`, which panics —
the `Intn` argument is not at least 1. -/
theorem C10_counterexample :
    (∀ x ∈ ([⟨2 ^ 62, 0⟩, ⟨2 ^ 62, 1⟩, ⟨2 ^ 62, 2⟩, ⟨2 ^ 62, 3⟩] : List WeightedItem),
      0 < x.Weight) ∧
    BuildCDFWrap [⟨2 ^ 62, 0⟩, ⟨2 ^ 62, 1⟩, ⟨2 ^ 62, 2⟩, ⟨2 ^ 62, 3⟩]
      = (none, [⟨2 ^ 62, 0⟩, ⟨-(2 ^ 63), 1⟩, ⟨-(2 ^ 62), 2⟩, ⟨0, 3⟩]) ∧
    totalWeight [⟨2 ^ 62, 0⟩, ⟨-(2 ^ 63), 1⟩, ⟨-(2 ^ 62), 2⟩, ⟨0, 3⟩] = 0 ∧
    ¬ 1 ≤ totalWeight [⟨2 ^ 62, 0⟩, ⟨-(2 ^ 63), 1⟩, ⟨-(2 ^ 62), 2⟩, ⟨0, 3⟩] := by
  decide

/-- C10 (amended): for every successfully built integer distribution WHOSE
TOTAL ORIGINAL WEIGHT IS BELOW `2^63` (no accumulation step overflows), the
draw operation is safe: the argument passed to `Intn` — the total weight, the
last cumulative entry — is at least 1 (so `Intn` does not panic), and for
every drawn value `num` in `[1, total]` the search completes with
`isSome = true`, which in this embedding means the loop reached a return
statement and every slice access on the executed path (the accesses at `m`,
and at `m+1` / `m-1` behind their guards) was in bounds, since an
out-of-bounds access or fuel exhaustion would yield `none`. The build is
modelled with wrapping 64-bit accumulation (`BuildCDFWrap`); positivity of
the weights follows from the build's own checks. Without the no-overflow
proviso the claim fails (see the counterexample). -/
theorem C10_draw_safety (s out : List WeightedItem)
    (htot : (s.map (fun x => x.Weight)).sum < 2 ^ 63)
    (h : BuildCDFWrap s = (none, out)) :
    1 ≤ totalWeight out ∧
      ∀ num : Int, 1 ≤ num → num ≤ totalWeight out →
        (searchCDF out num).isSome = true := by
  have hpos := BuildCDFWrap_ok_pos s out h
  rw [BuildCDFWrap_no_overflow s hpos htot] at h
  obtain ⟨-, -, -, -, htotpos, -⟩ := BuildCDF_ok_facts s out h
  refine ⟨htotpos, ?_⟩
  intro num _ h2
  obtain ⟨x, -, hres⟩ := searchCDF_mem s out num h h2
  rw [hres]
  rfl

theorem C10_witness :
    1 ≤ totalWeight [⟨1, 0⟩, ⟨3, 1⟩, ⟨8, 2⟩] ∧
      ∀ num : Int, 1 ≤ num → num ≤ totalWeight [⟨1, 0⟩, ⟨3, 1⟩, ⟨8, 2⟩] →
        (searchCDF [⟨1, 0⟩, ⟨3, 1⟩, ⟨8, 2⟩] num).isSome = true :=
  C10_draw_safety [⟨1, 0⟩, ⟨2, 1⟩, ⟨5, 2⟩] [⟨1, 0⟩, ⟨3, 1⟩, ⟨8, 2⟩]
    (by decide) (by decide)


/-- C1 (evaluation at the failing input): building from weights `[1, 2, 5]`
with indices `[0, 1, 2]` gives the cumulative array `[1, 3, 8]`, but the
drawn value 1 resolves to index 1, not to index 0 as the claim states: the
first position whose cumulative value is ≥ 1 is position 0, which stores
index 0 (third conjunct). The cause is the `<=` on stairs.go line 141
(`s[m-1].Weight <= num`): at the first probe `m = 1` the test `1 <= 1`
succeeds and `s[1].Index` is returned even though position 0 already covers
the drawn value. The other concrete values of the claim (2 ↦ 1, 3 ↦ 1,
8 ↦ 2) do match the code. -/
theorem C1_first_position_bug :
    BuildCDF [⟨1, 0⟩, ⟨2, 1⟩, ⟨5, 2⟩] = (none, [⟨1, 0⟩, ⟨3, 1⟩, ⟨8, 2⟩]) ∧
    searchCDF [⟨1, 0⟩, ⟨3, 1⟩, ⟨8, 2⟩] 1 = some 1 ∧
    specFirstIndexGE [⟨1, 0⟩, ⟨3, 1⟩, ⟨8, 2⟩] (1 : Int) = some 0 ∧
    searchCDF [⟨1, 0⟩, ⟨3, 1⟩, ⟨8, 2⟩] 2 = some 1 ∧
    searchCDF [⟨1, 0⟩, ⟨3, 1⟩, ⟨8, 2⟩] 3 = some 1 ∧
    searchCDF [⟨1, 0⟩, ⟨3, 1⟩, ⟨8, 2⟩] 8 = some 2 := by decide

/-- C2 (evaluation at the failing input): for the distribution built from
weights `[1, 2, 5]` and indices `[0, 1, 2]` (cumulative array `[1, 3, 8]`),
the 8 equally likely drawn values 1..8 do NOT split as 1/2/5: no drawn value
maps to index 0, three map to index 1 and five map to index 2, so item 0
(weight 1) is drawn with probability 0 instead of 1/8. -/
theorem C2_weight_mass_bug :
    BuildCDF [⟨1, 0⟩, ⟨2, 1⟩, ⟨5, 2⟩] = (none, [⟨1, 0⟩, ⟨3, 1⟩, ⟨8, 2⟩]) ∧
    ((List.range 8).map
      (fun v => searchCDF [⟨1, 0⟩, ⟨3, 1⟩, ⟨8, 2⟩] (Int.ofNat v + 1))).count (some 0) = 0 ∧
    ((List.range 8).map
      (fun v => searchCDF [⟨1, 0⟩, ⟨3, 1⟩, ⟨8, 2⟩] (Int.ofNat v + 1))).count (some 1) = 3 ∧
    ((List.range 8).map
      (fun v => searchCDF [⟨1, 0⟩, ⟨3, 1⟩, ⟨8, 2⟩] (Int.ofNat v + 1))).count (some 2) = 5 := by
  decide
